import Mathlib

/-!
Shallow embedding of the primesocket-core repository (Rust), covering:
* `src/primesocket-core/src/utils/sieve.rs` (`sieve_segment`),
* `src/primesocket-core/src/server/server_state.rs` (`ServerState`),
* `src/primesocket-core/src/server/response_handler.rs` (`handler`, the
  coordinator transition function used by `server.rs`),
* `src/primesocket-core/src/utils/json.rs` (wire decoding).

Machine integers (`u32`, `u64`, `u8`) are embedded as `Nat` with explicit
`% 2^w` at every operation that can overflow, following Rust release-mode
wrapping semantics.  Operations that panic in Rust (remainder by zero,
out-of-bounds indexing) are embedded as `Option`-returning functions where
`none` models the fault.
-/

namespace PrimeSocket

/-- Modulus of the `u32` type: 2^32. -/
def U32 : Nat := 4294967296

/-! ## Segmented sieve (`utils/sieve.rs`) -/

/-- Wrapping `u32` subtraction `a - b`, for `a b < U32`. -/
def wsub32 (a b : Nat) : Nat := (a + U32 - b) % U32

/-- Array write `arr[i] = v`; `none` models Rust's out-of-bounds panic. -/
def setAt (arr : List Nat) (i v : Nat) : Option (List Nat) :=
  if i < arr.length then some (arr.set i v) else none

/-- Inner marking loop of `sieve_segment`: for each `j` in `js` execute
`is_prime[(j - start) as usize] = 0` (the index computed with wrapping `u32`
subtraction); `none` models an out-of-bounds panic. -/
def markGo (start : Nat) : List Nat → List Nat → Option (List Nat)
  | arr, [] => some arr
  | arr, j :: js =>
    match setAt arr (wsub32 j start) 0 with
    | some arr2 => markGo start arr2 js
    | none => none

/-- The iteration sequence of Rust's `(mul..=end).step_by(p)`:
`mul, mul + p, …` while `≤ end_` (empty when `mul > end_`). -/
def stepRange (mul end_ p : Nat) : List Nat :=
  List.range' mul ((end_ + 1 - mul + (p - 1)) / p) p

/-- First position marked for a divisor `p` (the `mul` variable of
`sieve_segment`): `max(p*p, start rounded up to a multiple of p)` in wrapping
`u32` arithmetic, bumped by `p` once when it equals `p` itself. -/
def mulStart (start p : Nat) : Nat :=
  let t := (start + (p - start % p) % p) % U32
  let m := max (p * p % U32) t
  if m = p then (m + p) % U32 else m

/-- One body of the `for &prime in &primes` loop plus the loop itself:
mirrors `sieve_segment`'s divisor loop, including the `break` when
`prime * prime > end` and the wrapping `u32` arithmetic computing `mul`.
`prime = 0` faults (`start % 0` panics in Rust). -/
def markLoop (start end_ : Nat) (arr : List Nat) : List Nat → Option (List Nat)
  | [] => some arr
  | p :: ps =>
    if p * p % U32 > end_ then some arr
    else if p = 0 then none
    else
      match markGo start arr (stepRange (mulStart start p) end_ p) with
      | some arr2 => markLoop start end_ arr2 ps
      | none => none

/-- Final collection pass of `sieve_segment`: for each `i` of the inclusive
range `start..=end`, keep `i` iff `is_prime[(i - start) as usize] == 1`;
`none` models an out-of-bounds panic while reading. -/
def collectGo (start : Nat) (arr : List Nat) : List Nat → Option (List Nat)
  | [] => some []
  | i :: is_ =>
    match arr.get? (i - start), collectGo start arr is_ with
    | some v, some rest => some (if v = 1 then i :: rest else rest)
    | _, _ => none

/-- `sieve_segment(start, end, primes)` from `utils/sieve.rs`, with Rust
release-mode wrapping on `end - start + 1` and on all `u32` arithmetic;
`none` models a panic (divide by zero or index out of bounds). -/
def sieve_segment (start end_ : Nat) (primes : List Nat) : Option (List Nat) :=
  let size := (wsub32 end_ start + 1) % U32
  match markLoop start end_ (List.replicate size 1) primes with
  | some arr => collectGo start arr (List.range' start (end_ + 1 - start))
  | none => none

/-! ## Server state (`server/server_state.rs`) -/

/-- `ServerState` from `server_state.rs`; `last_checked` is the assignment
cursor, `end_` the upper bound of the job. -/
structure ServerState where
  end_ : Nat
  step : Nat
  last_checked : Nat
  primes : List Nat
  status : String
deriving DecidableEq, Repr

/-- `ServerState::new(start, end)`: cursor starts at `start`, `step` is the
constant 1000, `primes` is pre-seeded with the 25 primes up to 97, status is
`"processing"`. -/
def ServerState.new (start end_ : Nat) : ServerState :=
  { end_ := end_
    step := 1000
    last_checked := start
    primes := [2, 3, 5, 7, 11, 13, 17, 19, 23, 29, 31, 37, 41, 43, 47,
               53, 59, 61, 67, 71, 73, 79, 83, 89, 97]
    status := "processing" }

/-! ## Coordinator transition (`server/response_handler.rs`) -/

/-- `Request` as used by `response_handler.rs` and `server.rs`:
`task`, optional `end`, optional `primes`. -/
structure Request where
  task : String
  end_ : Option Nat
  primes : Option (List Nat)
deriving DecidableEq, Repr

/-- `Response` as used by `response_handler.rs` and `server.rs`. -/
structure Response where
  task : String
  status : String
  start : Option Nat
  end_ : Option Nat
  primes : Option (List Nat)
deriving DecidableEq, Repr

/-- The coordinator transition `handler(&mut ServerState, Request) -> Response`
from `response_handler.rs`, returned as the pair (updated state, response).
`last_checked + step` wraps as `u32`. -/
def handler (s : ServerState) (req : Request) : ServerState × Response :=
  if s.status = "completed" then
    (s, ⟨"done", s.status, none, none, none⟩)
  else
    match req.task with
    | "start" =>
      (s, ⟨"range", s.status, some s.last_checked,
           some ((s.last_checked + s.step) % U32),
           some (s.primes.take 10000)⟩)
    | "save" =>
      let reported := req.end_.getD 0
      let s1 : ServerState :=
        { s with primes := s.primes ++ req.primes.getD []
                 last_checked := max reported s.last_checked }
      if s1.last_checked ≥ s1.end_ then
        let s2 := { s1 with status := "completed" }
        (s2, ⟨"done", s2.status, none, none, none⟩)
      else
        (s1, ⟨"continue", s1.status, none, none, none⟩)
    | _ =>
      (s, ⟨"error", "invalid_task", none, none, none⟩)

/-- The state part of one coordinator transition. -/
def stepState (s : ServerState) (req : Request) : ServerState :=
  (handler s req).1

/-- State after a sequence of coordinator transitions. -/
def runRequests (s : ServerState) (reqs : List Request) : ServerState :=
  reqs.foldl stepState s

/-! ## Wire codec (`utils/json.rs`) -/

namespace Wire

/-- JSON values, the parse result of a well-formed payload. -/
inductive Json where
  | null
  | bool (b : Bool)
  | num (n : Int)
  | str (s : String)
  | arr (elems : List Json)
  | obj (fields : List (String × Json))

/-- First binding of a field name in a JSON object. -/
def jLookup : List (String × Json) → String → Option Json
  | [], _ => none
  | (k, v) :: rest, key => if k = key then some v else jLookup rest key

/-- Deserialize a `u64` (serde): a number in `[0, 2^64)`, anything else fails. -/
def decodeU64 : Json → Option Nat
  | .num n => if 0 ≤ n ∧ n < 18446744073709551616 then some n.toNat else none
  | _ => none

/-- Deserialize a `u8` (serde): a number in `[0, 256)`, anything else fails. -/
def decodeU8 : Json → Option Nat
  | .num n => if 0 ≤ n ∧ n < 256 then some n.toNat else none
  | _ => none

/-- Deserialize an `Option<u64>` field (serde): an absent or `null` field is
`none`; a present field must be a valid `u64`. -/
def decodeOptU64 : Option Json → Option (Option Nat)
  | none => some none
  | some .null => some none
  | some v => (decodeU64 v).map some

/-- Deserialize every element of a JSON array. -/
def decodeEach (f : Json → Option Nat) : List Json → Option (List Nat)
  | [] => some []
  | v :: vs =>
    match f v, decodeEach f vs with
    | some x, some xs => some (x :: xs)
    | _, _ => none

/-- Deserialize a `Vec<_>` (serde): a JSON array of valid elements. -/
def decodeVec (f : Json → Option Nat) : Json → Option (List Nat)
  | .arr es => decodeEach f es
  | _ => none

/-- Deserialize an `Option<Vec<_>>` field (serde): absent or `null` is `none`. -/
def decodeOptVec (f : Json → Option Nat) : Option Json → Option (Option (List Nat))
  | none => some none
  | some .null => some none
  | some v => (decodeVec f v).map some

/-- `Request` of `utils/json.rs`: required `task`, optional `end` (`u64`) and
`sieve` (`Vec<u8>`). -/
structure Request where
  task : String
  end_ : Option Nat
  sieve : Option (List Nat)
deriving DecidableEq

/-- `Response` of `utils/json.rs`: required `task` and `status`, optional
`start`, `end`, `sieve`, `last_checked`, `primes`. -/
structure Response where
  task : String
  status : String
  start : Option Nat
  end_ : Option Nat
  sieve : Option (List Nat)
  last_checked : Option Nat
  primes : Option (List Nat)
deriving DecidableEq

/-- Serde-derive deserialization of `Request` from a JSON value: the input
must be an object, `task` must be a string, optional fields follow
`decodeOptU64` / `decodeOptVec`; unknown fields are ignored. -/
def decodeRequest : Json → Option Request
  | .obj fields =>
    match jLookup fields "task", decodeOptU64 (jLookup fields "end"),
          decodeOptVec decodeU8 (jLookup fields "sieve") with
    | some (.str t), some e, some sv => some ⟨t, e, sv⟩
    | _, _, _ => none
  | _ => none

/-- Serde-derive deserialization of `Response` from a JSON value. -/
def decodeResponse : Json → Option Response
  | .obj fields =>
    match jLookup fields "task", jLookup fields "status",
          decodeOptU64 (jLookup fields "start"),
          decodeOptU64 (jLookup fields "end"),
          decodeOptVec decodeU8 (jLookup fields "sieve"),
          decodeOptU64 (jLookup fields "last_checked"),
          decodeOptVec decodeU64 (jLookup fields "primes") with
    | some (.str t), some (.str st), some s1, some e1, some sv, some lc, some pr =>
      some ⟨t, st, s1, e1, sv, lc, pr⟩
    | _, _, _, _, _, _, _ => none
  | _ => none

/-- Modelled from the spec: `Request::from_json` is
`serde_json::from_str(json).ok()`; the text-level parse is performed by the
third-party serde_json crate, which is not part of this repository, so its
outcome is taken as an `Option Json` argument (`none` models a malformed or
truncated payload, on which serde_json returns `Err` and `.ok()` gives
`None`). -/
def Request.from_json (parsed : Option Json) : Option Request :=
  parsed.bind decodeRequest

/-- Modelled from the spec: `Response::from_json`, as `Request.from_json`. -/
def Response.from_json (parsed : Option Json) : Option Response :=
  parsed.bind decodeResponse

end Wire

end PrimeSocket

namespace PrimeSocket

/-! ## Theorems about the coordinator -/

/-- C10: a freshly created `ServerState` has cursor `start`, status
`"processing"`, step fixed at 1000, and `primes` pre-seeded with the 25 primes
from 2 through 97; the first `Range` response already carries these primes. -/
theorem server_state_new_spec (start end_ : Nat) :
    (ServerState.new start end_).last_checked = start ∧
    (ServerState.new start end_).status = "processing" ∧
    (ServerState.new start end_).step = 1000 ∧
    (ServerState.new start end_).primes =
      [2, 3, 5, 7, 11, 13, 17, 19, 23, 29, 31, 37, 41, 43, 47,
       53, 59, 61, 67, 71, 73, 79, 83, 89, 97] ∧
    (handler (ServerState.new start end_) ⟨"start", none, none⟩).2.primes =
      some [2, 3, 5, 7, 11, 13, 17, 19, 23, 29, 31, 37, 41, 43, 47,
            53, 59, 61, 67, 71, 73, 79, 83, 89, 97] :=
  ⟨rfl, rfl, rfl, rfl, rfl⟩

/-- C2 counterexample: in a completed state with known primes `[2, 3]`, the
response to a request is `done` but carries `primes = none`, not the final
known primes as the claim states. -/
theorem completed_response_counterexample :
    (handler ⟨10, 1000, 10, [2, 3], "completed"⟩ ⟨"start", none, none⟩).2.primes = none ∧
    (handler ⟨10, 1000, 10, [2, 3], "completed"⟩ ⟨"start", none, none⟩).2.primes ≠
      some (handler ⟨10, 1000, 10, [2, 3], "completed"⟩ ⟨"start", none, none⟩).1.primes := by
  decide

/-- C2 amended: once status is `"completed"`, every request (regardless of
task) is answered with `done` and the state — in particular `primes` — is left
unchanged; the response carries no primes payload. -/
theorem completed_idempotent (s : ServerState) (req : Request)
    (h : s.status = "completed") :
    handler s req = (s, ⟨"done", "completed", none, none, none⟩) := by
  simp [handler, h]

/-- Witness for `completed_idempotent` at a concrete completed state. -/
theorem completed_idempotent_witness :
    handler ⟨10, 1000, 10, [2, 3], "completed"⟩ ⟨"fetch", none, none⟩ =
      (⟨10, 1000, 10, [2, 3], "completed"⟩, ⟨"done", "completed", none, none, none⟩) :=
  completed_idempotent _ _ rfl

/-- C3 counterexample: with cursor 10 and a save reporting `end = 5` (which
does not exceed the cursor) and primes `[99]`, the code still appends `99` to
the known primes, and the `done` response carries `primes = none` rather than
the full known primes. -/
theorem save_append_counterexample :
    ¬ 5 > 10 ∧
    (handler ⟨10, 1000, 10, [2, 3], "processing"⟩ ⟨"save", some 5, some [99]⟩).1.primes ≠
      (⟨10, 1000, 10, [2, 3], "processing"⟩ : ServerState).primes ∧
    (handler ⟨10, 1000, 10, [2, 3], "processing"⟩ ⟨"save", some 5, some [99]⟩).2.task = "done" ∧
    (handler ⟨10, 1000, 10, [2, 3], "processing"⟩ ⟨"save", some 5, some [99]⟩).2.primes = none := by
  decide

/-- C3 amended: a `save` handled while processing always appends the reported
primes (even when the reported end does not exceed the cursor), advances the
cursor to `max(reported end, cursor)` (0 when absent), and responds `done`
with no payload when the new cursor reaches `end`, else `continue` with no
payload. -/
theorem save_transition_spec (s : ServerState) (req : Request)
    (hs : s.status = "processing") (ht : req.task = "save") :
    handler s req =
      (if s.end_ ≤ max (req.end_.getD 0) s.last_checked then
        ({ s with last_checked := max (req.end_.getD 0) s.last_checked,
                  primes := s.primes ++ req.primes.getD [],
                  status := "completed" },
         ⟨"done", "completed", none, none, none⟩)
      else
        ({ s with last_checked := max (req.end_.getD 0) s.last_checked,
                  primes := s.primes ++ req.primes.getD [] },
         ⟨"continue", "processing", none, none, none⟩)) := by
  rcases req with ⟨t, e, pr⟩
  simp only [Request.task] at ht
  subst ht
  simp [handler, hs]

/-- Witness for `save_transition_spec`: spec scenario 3 — from cursor 0 with
end 100, saving `end = 10, primes = [5, 7]` advances the cursor to 10 and
responds `continue`. -/
theorem save_transition_spec_witness :
    handler ⟨100, 10, 0, [2, 3], "processing"⟩ ⟨"save", some 10, some [5, 7]⟩ =
      (⟨100, 10, 10, [2, 3, 5, 7], "processing"⟩,
       ⟨"continue", "processing", none, none, none⟩) :=
  (save_transition_spec ⟨100, 10, 0, [2, 3], "processing"⟩
      ⟨"save", some 10, some [5, 7]⟩ rfl rfl).trans (by decide)

/-- C4 counterexample: with cursor 95, step 1000 and end 100, the `range`
response's upper bound is `95 + 1000 = 1095`, not `min(95 + 1000, 100) = 100`:
the assignment is not clamped to `end`. -/
theorem start_range_counterexample :
    (handler ⟨100, 1000, 95, [2, 3], "processing"⟩ ⟨"start", none, none⟩).2.end_ =
      some 1095 ∧
    ¬ (1095 : Nat) = min (95 + 1000) 100 := by
  decide

/-- C4 amended: a `start` handled while processing is answered with a `range`
whose span is `[cursor, (cursor + step) mod 2^32]` — not clamped to `end` —
carrying the first 10000 known primes as the divisor set. -/
theorem start_range_spec (s : ServerState) (req : Request)
    (hs : s.status = "processing") (ht : req.task = "start") :
    handler s req =
      (s, ⟨"range", "processing", some s.last_checked,
           some ((s.last_checked + s.step) % U32),
           some (s.primes.take 10000)⟩) := by
  rcases req with ⟨t, e, pr⟩
  simp only [Request.task] at ht
  subst ht
  simp [handler, hs]

/-- Witness for `start_range_spec` on a fresh state. -/
theorem start_range_spec_witness :
    handler (ServerState.new 0 100) ⟨"start", none, none⟩ =
      (ServerState.new 0 100,
       ⟨"range", "processing", some 0, some 1000,
        some [2, 3, 5, 7, 11, 13, 17, 19, 23, 29, 31, 37, 41, 43, 47,
              53, 59, 61, 67, 71, 73, 79, 83, 89, 97]⟩) :=
  (start_range_spec (ServerState.new 0 100) ⟨"start", none, none⟩ rfl rfl).trans
    (by decide)

/-- C6: the cursor never decreases across a `save` transition, whatever the
reported end (duplicate or overlapping reports included). -/
theorem cursor_monotone (s : ServerState) (req : Request) (h : req.task = "save") :
    s.last_checked ≤ (handler s req).1.last_checked := by
  rcases req with ⟨t, e, pr⟩
  simp only [Request.task] at h
  subst h
  by_cases hc : s.status = "completed"
  · simp [handler, hc]
  · simp only [handler, if_neg hc]
    split <;> dsimp <;> omega

/-- Witness for `cursor_monotone` at a concrete state and save request. -/
theorem cursor_monotone_witness :
    (ServerState.new 0 100).last_checked ≤
      (handler (ServerState.new 0 100) ⟨"save", some 7, none⟩).1.last_checked :=
  cursor_monotone (ServerState.new 0 100) ⟨"save", some 7, none⟩ rfl

/-- C8: a `start` request handled while processing leaves the state unchanged
in every field, and a second `start` with no intervening save receives the
same response (same assigned range). -/
theorem start_frame (s : ServerState) (req : Request)
    (hs : s.status = "processing") (ht : req.task = "start") :
    (handler s req).1 = s ∧
    (handler (handler s req).1 req).2 = (handler s req).2 := by
  rcases req with ⟨t, e, pr⟩
  simp only [Request.task] at ht
  subst ht
  simp [handler, hs]

/-- Witness for `start_frame` on a fresh state. -/
theorem start_frame_witness :
    (handler (ServerState.new 2 100) ⟨"start", none, none⟩).1 = ServerState.new 2 100 ∧
    (handler (handler (ServerState.new 2 100) ⟨"start", none, none⟩).1
        ⟨"start", none, none⟩).2 =
      (handler (ServerState.new 2 100) ⟨"start", none, none⟩).2 :=
  start_frame (ServerState.new 2 100) ⟨"start", none, none⟩ rfl rfl

/-- C5 counterexample: the freshly created state `ServerState.new 5 3` (reachable
by the empty transition sequence) violates both `cursor ≤ end` and the claimed
equivalence between `status = completed` and `cursor ≥ end`. -/
theorem invariant_counterexample :
    ¬ ((runRequests (ServerState.new 5 3) []).last_checked ≤
        (runRequests (ServerState.new 5 3) []).end_ ∧
       ((runRequests (ServerState.new 5 3) []).status = "completed" ↔
        (runRequests (ServerState.new 5 3) []).end_ ≤
          (runRequests (ServerState.new 5 3) []).last_checked)) := by
  decide

/-- Helper: one coordinator transition preserves the reachability invariant
(cursor at least `start`, `end` constant, status either processing or
completed, and completed exactly when the cursor reached `end`). -/
theorem stepState_inv (start end_ : Nat) (s : ServerState) (r : Request)
    (h1 : start ≤ s.last_checked) (h2 : s.end_ = end_)
    (h3 : s.status = "completed" ∨ s.status = "processing")
    (h4 : s.status = "completed" ↔ end_ ≤ s.last_checked) :
    start ≤ (stepState s r).last_checked ∧ (stepState s r).end_ = end_ ∧
    ((stepState s r).status = "completed" ∨ (stepState s r).status = "processing") ∧
    ((stepState s r).status = "completed" ↔ end_ ≤ (stepState s r).last_checked) := by
  by_cases hc : s.status = "completed"
  · simp only [stepState, handler, if_pos hc]
    exact ⟨h1, h2, h3, h4⟩
  · simp only [stepState, handler, if_neg hc]
    split
    · exact ⟨h1, h2, h3, h4⟩
    · split
      · next hge =>
        subst h2
        refine ⟨le_trans h1 (Nat.le_max_right _ _), rfl, Or.inl rfl, ?_⟩
        simp only [true_iff]
        exact hge
      · next hge =>
        subst h2
        refine ⟨le_trans h1 (Nat.le_max_right _ _), rfl, h3, ?_⟩
        simp only [hc, false_iff]
        exact hge
    · exact ⟨h1, h2, h3, h4⟩

/-- Helper: the reachability invariant holds after any request sequence. -/
theorem runRequests_inv (start end_ : Nat) (reqs : List Request) :
    ∀ s : ServerState, start ≤ s.last_checked → s.end_ = end_ →
      (s.status = "completed" ∨ s.status = "processing") →
      (s.status = "completed" ↔ end_ ≤ s.last_checked) →
      start ≤ (runRequests s reqs).last_checked ∧
      (runRequests s reqs).end_ = end_ ∧
      ((runRequests s reqs).status = "completed" ∨
        (runRequests s reqs).status = "processing") ∧
      ((runRequests s reqs).status = "completed" ↔
        end_ ≤ (runRequests s reqs).last_checked) := by
  induction reqs with
  | nil => intro s h1 h2 h3 h4; exact ⟨h1, h2, h3, h4⟩
  | cons r rs ih =>
    intro s h1 h2 h3 h4
    have h := stepState_inv start end_ s r h1 h2 h3 h4
    exact ih (stepState s r) h.1 h.2.1 h.2.2.1 h.2.2.2

/-- C5 amended: for a job created with `start < end`, every state reachable by
coordinator transitions satisfies `start ≤ cursor`, and its status is
`"completed"` exactly when `cursor ≥ end` (the bound `cursor ≤ end` does not
hold in general, since a save may report an end beyond `end`). -/
theorem reachable_invariant (start end_ : Nat) (reqs : List Request)
    (h : start < end_) :
    start ≤ (runRequests (ServerState.new start end_) reqs).last_checked ∧
    ((runRequests (ServerState.new start end_) reqs).status = "completed" ↔
      (runRequests (ServerState.new start end_) reqs).end_ ≤
        (runRequests (ServerState.new start end_) reqs).last_checked) := by
  have hinit4 : (ServerState.new start end_).status = "completed" ↔
      end_ ≤ (ServerState.new start end_).last_checked := by
    constructor
    · intro habs
      exact absurd habs (by simp [ServerState.new])
    · intro habs
      exact absurd habs (by simp [ServerState.new]; omega)
  have hrun := runRequests_inv start end_ reqs (ServerState.new start end_)
    (le_refl _) rfl (Or.inr rfl) hinit4
  exact ⟨hrun.1, hrun.2.2.2.trans (by rw [hrun.2.1])⟩

/-- Witness for `reachable_invariant` after one save transition. -/
theorem reachable_invariant_witness :
    0 ≤ (runRequests (ServerState.new 0 100) [⟨"save", some 10, none⟩]).last_checked ∧
    ((runRequests (ServerState.new 0 100) [⟨"save", some 10, none⟩]).status = "completed" ↔
      (runRequests (ServerState.new 0 100) [⟨"save", some 10, none⟩]).end_ ≤
        (runRequests (ServerState.new 0 100) [⟨"save", some 10, none⟩]).last_checked) :=
  reachable_invariant 0 100 [⟨"save", some 10, none⟩] (by decide)

end PrimeSocket

namespace PrimeSocket

theorem decodeRequest_fields (fields : List (String × Wire.Json)) (r : Wire.Request)
    (h : Wire.decodeRequest (Wire.Json.obj fields) = some r) :
    Wire.decodeOptU64 (Wire.jLookup fields "end") = some r.end_ ∧
    Wire.decodeOptVec Wire.decodeU8 (Wire.jLookup fields "sieve") = some r.sieve := by
  simp only [Wire.decodeRequest] at h
  split at h
  · rename_i t e sv h1 h2 h3
    injection h with h4
    subst h4
    exact ⟨h2, h3⟩
  · exact Option.noConfusion h

end PrimeSocket

namespace PrimeSocket

theorem decodeResponse_fields (fields : List (String × Wire.Json)) (resp : Wire.Response)
    (h : Wire.decodeResponse (Wire.Json.obj fields) = some resp) :
    Wire.decodeOptU64 (Wire.jLookup fields "start") = some resp.start ∧
    Wire.decodeOptU64 (Wire.jLookup fields "end") = some resp.end_ ∧
    Wire.decodeOptVec Wire.decodeU8 (Wire.jLookup fields "sieve") = some resp.sieve ∧
    Wire.decodeOptU64 (Wire.jLookup fields "last_checked") = some resp.last_checked ∧
    Wire.decodeOptVec Wire.decodeU64 (Wire.jLookup fields "primes") = some resp.primes := by
  simp only [Wire.decodeResponse] at h
  split at h
  · rename_i t st s1 e1 sv lc pr h1 h2 h3 h4 h5 h6 h7
    injection h with h8
    subst h8
    exact ⟨h3, h4, h5, h6, h7⟩
  · exact Option.noConfusion h

/-- C9: decoding never crashes the caller — it is Option-valued; a malformed
or truncated payload (a failed parse, or a value of the wrong shape) yields
the typed invalid result `none`, and a well-formed payload with absent
optional fields decodes with those fields absent (`none`), not zero. -/
theorem decode_total_optional (p : Option Wire.Json) :
    (p = none → Wire.Request.from_json p = none ∧ Wire.Response.from_json p = none) ∧
    (∀ fields r, p = some (Wire.Json.obj fields) → Wire.Request.from_json p = some r →
      (Wire.jLookup fields "end" = none → r.end_ = none) ∧
      (Wire.jLookup fields "sieve" = none → r.sieve = none)) ∧
    (∀ fields resp, p = some (Wire.Json.obj fields) → Wire.Response.from_json p = some resp →
      (Wire.jLookup fields "start" = none → resp.start = none) ∧
      (Wire.jLookup fields "end" = none → resp.end_ = none) ∧
      (Wire.jLookup fields "sieve" = none → resp.sieve = none) ∧
      (Wire.jLookup fields "last_checked" = none → resp.last_checked = none) ∧
      (Wire.jLookup fields "primes" = none → resp.primes = none)) := by
  refine ⟨?_, ?_, ?_⟩
  · rintro rfl
    exact ⟨rfl, rfl⟩
  · rintro fields r rfl hr
    have h := decodeRequest_fields fields r hr
    constructor
    · intro hnone
      rw [hnone] at h
      have h1 := h.1
      simp only [Wire.decodeOptU64, Option.some.injEq] at h1
      exact h1.symm
    · intro hnone
      rw [hnone] at h
      have h2 := h.2
      simp only [Wire.decodeOptVec, Option.some.injEq] at h2
      exact h2.symm
  · rintro fields resp rfl hr
    have h := decodeResponse_fields fields resp hr
    refine ⟨?_, ?_, ?_, ?_, ?_⟩ <;> intro hnone <;> rw [hnone] at h
    · have h1 := h.1
      simp only [Wire.decodeOptU64, Option.some.injEq] at h1
      exact h1.symm
    · have h1 := h.2.1
      simp only [Wire.decodeOptU64, Option.some.injEq] at h1
      exact h1.symm
    · have h1 := h.2.2.1
      simp only [Wire.decodeOptVec, Option.some.injEq] at h1
      exact h1.symm
    · have h1 := h.2.2.2.1
      simp only [Wire.decodeOptU64, Option.some.injEq] at h1
      exact h1.symm
    · have h1 := h.2.2.2.2
      simp only [Wire.decodeOptVec, Option.some.injEq] at h1
      exact h1.symm

/-- Witness for `decode_total_optional` on a concrete minimal payload. -/
theorem decode_total_optional_witness :
    Wire.Request.from_json (some (Wire.Json.obj [("task", Wire.Json.str "start")])) =
      some ⟨"start", none, none⟩ ∧
    (⟨"start", none, none⟩ : Wire.Request).end_ = none ∧
    (⟨"start", none, none⟩ : Wire.Request).sieve = none := by
  have h := (decode_total_optional
      (some (Wire.Json.obj [("task", Wire.Json.str "start")]))).2.1
      [("task", Wire.Json.str "start")] ⟨"start", none, none⟩ rfl rfl
  exact ⟨rfl, h.1 rfl, h.2 rfl⟩

end PrimeSocket

namespace PrimeSocket

theorem stepRange_nil (mul end_ p : Nat) (h : end_ < mul) (hp : 0 < p) :
    stepRange mul end_ p = [] := by
  unfold stepRange
  have hz : (end_ + 1 - mul + (p - 1)) / p = 0 := Nat.div_eq_of_lt (by omega)
  rw [hz, List.range']

theorem mulStart_gt (start p : Nat) (hp1 : 1 ≤ p) (hp2 : p < 65536)
    (hwrap : start + p ≤ U32) :
    start ≤ mulStart start p := by
  unfold mulStart
  have hoff : (p - start % p) % p < p := Nat.mod_lt _ hp1
  have ht : (start + (p - start % p) % p) % U32 = start + (p - start % p) % p :=
    Nat.mod_eq_of_lt (by omega)
  rw [ht]
  set t := start + (p - start % p) % p with htdef
  have htge : start ≤ t := Nat.le_add_right _ _
  set m := max (p * p % U32) t with hmdef
  have hmge : t ≤ m := Nat.le_max_right _ _
  by_cases hmp : m = p
  · rw [if_pos hmp]
    have h2p : (m + p) % U32 = m + p := by
      rw [hmp]
      exact Nat.mod_eq_of_lt (by simp only [U32]; omega)
    rw [h2p]
    omega
  · rw [if_neg hmp]
    omega

theorem markLoop_empty (hi : Nat) (hhi : hi ≤ U32 - 65536) :
    ∀ ds : List Nat, (∀ p ∈ ds, 1 ≤ p ∧ p < 65536) →
      markLoop (hi + 1) hi [] ds = some [] := by
  intro ds
  induction ds with
  | nil => intro _; rfl
  | cons p ps ih =>
    intro hds
    obtain ⟨hp1, hp2⟩ := hds p (List.mem_cons_self p ps)
    by_cases hbk : p * p % U32 > hi
    · simp [markLoop, hbk]
    · have hp0 : ¬ p = 0 := by omega
      have hU : 65536 ≤ U32 := by simp only [U32]; omega
      have hgt : hi < mulStart (hi + 1) p :=
        lt_of_lt_of_le (Nat.lt_succ_self hi)
          (mulStart_gt (hi + 1) p hp1 hp2 (by omega))
      simp only [markLoop, if_neg hbk, if_neg hp0,
        stepRange_nil _ _ _ hgt (by omega : 0 < p)]
      exact ih (fun q hq => hds q (List.mem_cons_of_mem p hq))

/-- C7 counterexample: with divisor list `[0]` and `lo = hi + 1 = 1`,
`sieve_segment` faults (`start % 0` is a division by zero panic in Rust,
modelled as `none`) instead of returning the empty sequence. -/
theorem sieve_zero_divisor_counterexample :
    sieve_segment 1 0 [0] = none ∧ sieve_segment 1 0 [0] ≠ some [] := by
  decide

/-- C7 amended: for every divisor list whose entries are nonzero and below
`2^16`, and every `hi ≤ 2^32 - 2^16`, calling `sieve_segment` with
`lo = hi + 1` returns the empty sequence and does not fault. -/
theorem sieve_empty_range (hi : Nat) (ds : List Nat)
    (hhi : hi ≤ U32 - 65536) (hds : ∀ p ∈ ds, 1 ≤ p ∧ p < 65536) :
    sieve_segment (hi + 1) hi ds = some [] := by
  unfold sieve_segment
  have hsize : (wsub32 hi (hi + 1) + 1) % U32 = 0 := by
    simp only [wsub32, U32]
    omega
  rw [hsize]
  simp only [List.replicate]
  rw [markLoop_empty hi hhi ds hds]
  have hrange : hi + 1 - (hi + 1) = 0 := by omega
  rw [hrange]
  rfl

/-- Witness for `sieve_empty_range` at `hi = 0` with divisors `[2, 3]`. -/
theorem sieve_empty_range_witness :
    (0 : Nat) ≤ U32 - 65536 ∧ (∀ p ∈ [2, 3], 1 ≤ p ∧ p < 65536) ∧
    sieve_segment 1 0 [2, 3] = some [] :=
  ⟨by decide, by decide, sieve_empty_range 0 [2, 3] (by decide) (by decide)⟩

end PrimeSocket

namespace PrimeSocket

theorem wsub32_eq (a b : Nat) (h1 : b ≤ a) (h2 : a < U32) : wsub32 a b = a - b := by
  simp only [wsub32, U32] at *
  omega

theorem mem_stepRange (mul end_ p j : Nat) (hp : 0 < p) :
    j ∈ stepRange mul end_ p ↔ (∃ k, j = mul + p * k) ∧ j ≤ end_ := by
  unfold stepRange
  rw [List.mem_range']
  constructor
  · rintro ⟨i, hi, rfl⟩
    refine ⟨⟨i, rfl⟩, ?_⟩
    have h1 := (Nat.le_div_iff_mul_le hp).mp (Nat.succ_le_of_lt hi)
    rw [Nat.succ_mul] at h1
    have h2 : i * p = p * i := Nat.mul_comm i p
    omega
  · rintro ⟨⟨k, rfl⟩, hle⟩
    refine ⟨k, ?_, rfl⟩
    have hkp : k * p = p * k := Nat.mul_comm k p
    have h1 : (k + 1) * p ≤ end_ + 1 - mul + (p - 1) := by
      rw [Nat.succ_mul]
      omega
    have h2 := (Nat.le_div_iff_mul_le hp).mpr h1
    omega

theorem roundUp_dvd (lo p : Nat) (hp : 0 < p) : p ∣ (lo + (p - lo % p) % p) := by
  rcases Nat.eq_zero_or_pos (lo % p) with hr | hr
  · rw [hr, Nat.sub_zero, Nat.mod_self, Nat.add_zero]
    exact Nat.dvd_of_mod_eq_zero hr
  · have hlt : lo % p < p := Nat.mod_lt _ hp
    have h1 : p - lo % p < p := by omega
    rw [Nat.mod_eq_of_lt h1]
    refine ⟨lo / p + 1, ?_⟩
    have h2 := Nat.div_add_mod lo p
    rw [Nat.mul_succ]
    omega

theorem roundUp_least (lo p n : Nat) (hp : 0 < p) (hdvd : p ∣ n) (hge : lo ≤ n) :
    lo + (p - lo % p) % p ≤ n := by
  have hdt := roundUp_dvd lo p hp
  have hoff : (p - lo % p) % p < p := Nat.mod_lt _ hp
  obtain ⟨a, rfl⟩ := hdvd
  obtain ⟨b, hb⟩ := hdt
  by_contra hlt
  push_neg at hlt
  have hab : a < b := by
    by_contra hba
    push_neg at hba
    have h1 : p * b ≤ p * a := Nat.mul_le_mul_left p hba
    omega
  have h2 : p * (a + 1) ≤ p * b := Nat.mul_le_mul_left p hab
  rw [Nat.mul_succ] at h2
  omega

theorem mulStart_eq (lo p : Nat) (hp : 2 ≤ p) (hpp : p * p < U32) (hwrap : lo + p ≤ U32) :
    mulStart lo p = max (p * p) (lo + (p - lo % p) % p) := by
  unfold mulStart
  have hoff : (p - lo % p) % p < p := Nat.mod_lt _ (by omega)
  have ht : (lo + (p - lo % p) % p) % U32 = lo + (p - lo % p) % p :=
    Nat.mod_eq_of_lt (by omega)
  have hppmod : p * p % U32 = p * p := Nat.mod_eq_of_lt hpp
  rw [ht, hppmod]
  have h2p : p < p * p := by
    have h1 : 2 * p ≤ p * p := Nat.mul_le_mul_right p hp
    omega
  rw [if_neg ?_]
  intro hcontra
  have h3 := Nat.le_max_left (p * p) (lo + (p - lo % p) % p)
  omega

end PrimeSocket

namespace PrimeSocket

theorem markGo_spec (start : Nat) :
    ∀ (js : List Nat) (arr : List Nat),
      (∀ j ∈ js, start ≤ j ∧ j < U32 ∧ j - start < arr.length) →
      ∃ arr2, markGo start arr js = some arr2 ∧ arr2.length = arr.length ∧
        ∀ i, i < arr.length →
          ((∃ j ∈ js, j - start = i) → arr2.get? i = some 0) ∧
          ((∀ j ∈ js, j - start ≠ i) → arr2.get? i = arr.get? i) := by
  intro js
  induction js with
  | nil =>
    intro arr _
    refine ⟨arr, rfl, rfl, ?_⟩
    intro i _
    constructor
    · rintro ⟨j, hj, -⟩
      exact absurd hj (List.not_mem_nil j)
    · intro _
      rfl
  | cons j js ih =>
    intro arr hb
    obtain ⟨hj1, hj2, hj3⟩ := hb j (List.mem_cons_self j js)
    have hidx : wsub32 j start = j - start := wsub32_eq j start hj1 hj2
    have hset : setAt arr (wsub32 j start) 0 = some (arr.set (j - start) 0) := by
      rw [hidx]
      unfold setAt
      rw [if_pos hj3]
    obtain ⟨arr2, heq, hlen, hspec⟩ := ih (arr.set (j - start) 0)
      (by
        intro j' hj'
        have := hb j' (List.mem_cons_of_mem j hj')
        simpa [List.length_set] using this)
    refine ⟨arr2, ?_, ?_, ?_⟩
    · simp only [markGo, hset]
      exact heq
    · rw [hlen, List.length_set]
    · intro i hilt
      have hilt' : i < (arr.set (j - start) 0).length := by
        rw [List.length_set]
        exact hilt
      constructor
      · rintro ⟨j', hj', hji⟩
        rcases List.mem_cons.mp hj' with rfl | hmem
        · by_cases hrest : ∃ j'' ∈ js, j'' - start = i
          · exact (hspec i hilt').1 hrest
          · push_neg at hrest
            rw [(hspec i hilt').2 hrest]
            subst hji
            exact List.get?_set_eq_of_lt 0 hj3
        · exact (hspec i hilt').1 ⟨j', hmem, hji⟩
      · intro hnone
        have hne : j - start ≠ i := hnone j (List.mem_cons_self j js)
        rw [(hspec i hilt').2 (fun j' hj' => hnone j' (List.mem_cons_of_mem j hj')),
          List.get?_set_ne _ _ hne]

end PrimeSocket

namespace PrimeSocket

theorem markLoop_spec (lo hi : Nat) (hlh : lo ≤ hi) (hhi : hi ≤ U32 - 65536) :
    ∀ (ps : List Nat) (arr : List Nat),
      (∀ p ∈ ps, 2 ≤ p ∧ p * p ≤ hi) →
      arr.length = hi + 1 - lo →
      ∃ arr2, markLoop lo hi arr ps = some arr2 ∧ arr2.length = arr.length ∧
        ∀ i, i < arr.length →
          ((∃ p ∈ ps, p ∣ (lo + i) ∧ p * p ≤ lo + i) → arr2.get? i = some 0) ∧
          ((∀ p ∈ ps, ¬(p ∣ (lo + i) ∧ p * p ≤ lo + i)) → arr2.get? i = arr.get? i) := by
  intro ps
  induction ps with
  | nil =>
    intro arr _ _
    refine ⟨arr, rfl, rfl, ?_⟩
    intro i _
    constructor
    · rintro ⟨q, hq, -⟩
      exact absurd hq (List.not_mem_nil q)
    · intro _
      rfl
  | cons p ps ih =>
    intro arr hps hlen
    obtain ⟨hp2, hpp⟩ := hps p (List.mem_cons_self p ps)
    have hplt : p < 65536 := by
      by_contra hge
      push_neg at hge
      have h1 : 65536 * 65536 ≤ p * p := Nat.mul_le_mul hge hge
      simp only [U32] at *
      omega
    have hppU : p * p < U32 := by
      have : p * p ≤ hi := hpp
      simp only [U32] at *
      omega
    have hbreak : ¬ (p * p % U32 > hi) := by
      rw [Nat.mod_eq_of_lt hppU]
      omega
    have hp0 : ¬ p = 0 := by omega
    have hwrap : lo + p ≤ U32 := by simp only [U32] at *; omega
    have hmul := mulStart_eq lo p hp2 hppU hwrap
    have htdvd : p ∣ (lo + (p - lo % p) % p) := roundUp_dvd lo p (by omega)
    have htge : lo ≤ lo + (p - lo % p) % p := Nat.le_add_right lo _
    have hmdvd : p ∣ mulStart lo p := by
      rw [hmul]
      rcases max_choice (p * p) (lo + (p - lo % p) % p) with h | h <;> rw [h]
      · exact dvd_mul_right p p
      · exact htdvd
    have hmge_lo : lo ≤ mulStart lo p := by
      rw [hmul]
      exact le_trans htge (Nat.le_max_right _ _)
    have hmge_pp : p * p ≤ mulStart lo p := by
      rw [hmul]
      exact Nat.le_max_left _ _
    have hjs : ∀ j, j ∈ stepRange (mulStart lo p) hi p ↔
        (p ∣ j ∧ mulStart lo p ≤ j ∧ j ≤ hi) := by
      intro j
      rw [mem_stepRange _ _ _ _ (by omega)]
      constructor
      · rintro ⟨⟨k, rfl⟩, hle⟩
        exact ⟨dvd_add hmdvd (dvd_mul_right p k), Nat.le_add_right _ _, hle⟩
      · rintro ⟨hdj, hmj, hle⟩
        refine ⟨?_, hle⟩
        obtain ⟨a, ha⟩ := hmdvd
        obtain ⟨b, hb⟩ := hdj
        have hab : a ≤ b := by
          refine Nat.le_of_mul_le_mul_left ?_ (by omega : 0 < p)
          rw [← ha, ← hb]
          exact hmj
        refine ⟨b - a, ?_⟩
        rw [ha, hb, ← Nat.mul_add, Nat.add_sub_cancel' hab]
    have hjb : ∀ j ∈ stepRange (mulStart lo p) hi p,
        lo ≤ j ∧ j < U32 ∧ j - lo < arr.length := by
      intro j hj
      rw [hjs j] at hj
      refine ⟨le_trans hmge_lo hj.2.1, ?_, ?_⟩
      · have := hj.2.2
        simp only [U32] at *
        omega
      · have := hj.2.2
        rw [hlen]
        omega
    obtain ⟨arr1, hG, hGlen, hGspec⟩ := markGo_spec lo _ arr hjb
    obtain ⟨arr2, hL, hLlen, hLspec⟩ := ih arr1
      (fun q hq => hps q (List.mem_cons_of_mem _ hq)) (by rw [hGlen, hlen])
    refine ⟨arr2, ?_, by rw [hLlen, hGlen], ?_⟩
    · simp only [markLoop, if_neg hbreak, if_neg hp0, hG]
      exact hL
    · intro i hilt
      have hilt1 : i < arr1.length := by rw [hGlen]; exact hilt
      have hn_le : lo + i ≤ hi := by rw [hlen] at hilt; omega
      have hkey : (∃ j ∈ stepRange (mulStart lo p) hi p, j - lo = i) ↔
          (p ∣ (lo + i) ∧ p * p ≤ lo + i) := by
        constructor
        · rintro ⟨j, hj, rfl⟩
          rw [hjs j] at hj
          have hjlo : lo ≤ j := le_trans hmge_lo hj.2.1
          have hrw : lo + (j - lo) = j := by omega
          rw [hrw]
          exact ⟨hj.1, le_trans hmge_pp hj.2.1⟩
        · rintro ⟨hdvd, hsq⟩
          have htle : lo + (p - lo % p) % p ≤ lo + i :=
            roundUp_least lo p (lo + i) (by omega) hdvd (Nat.le_add_right _ _)
          have hmle : mulStart lo p ≤ lo + i := by
            rw [hmul]
            exact max_le hsq htle
          refine ⟨lo + i, ?_, by omega⟩
          rw [hjs]
          exact ⟨hdvd, hmle, hn_le⟩
      constructor
      · rintro ⟨q, hq, hqd⟩
        rcases List.mem_cons.mp hq with rfl | hqm
        · by_cases hrest : ∃ r ∈ ps, r ∣ (lo + i) ∧ r * r ≤ lo + i
          · exact (hLspec i hilt1).1 hrest
          · rw [(hLspec i hilt1).2 (fun r hr hc => hrest ⟨r, hr, hc⟩)]
            exact (hGspec i hilt).1 (hkey.mpr hqd)
        · exact (hLspec i hilt1).1 ⟨q, hqm, hqd⟩
      · intro hnone
        have hnp : ¬ (p ∣ (lo + i) ∧ p * p ≤ lo + i) :=
          hnone p (List.mem_cons_self p ps)
        rw [(hLspec i hilt1).2 (fun r hr hc => hnone r (List.mem_cons_of_mem _ hr) hc)]
        exact (hGspec i hilt).2 (fun j hj hji => hnp (hkey.mp ⟨j, hj, hji⟩))

end PrimeSocket

namespace PrimeSocket

theorem collectGo_spec (start : Nat) (arr : List Nat) :
    ∀ l : List Nat, (∀ i ∈ l, i - start < arr.length) →
      collectGo start arr l =
        some (l.filter (fun i => decide (arr.get? (i - start) = some 1))) := by
  intro l
  induction l with
  | nil => intro _; rfl
  | cons i is ih =>
    intro hb
    have hlt := hb i (List.mem_cons_self i is)
    obtain ⟨v, hv⟩ : ∃ v, arr.get? (i - start) = some v := by
      cases hg : arr.get? (i - start) with
      | none =>
        rw [List.get?_eq_none] at hg
        omega
      | some v => exact ⟨v, rfl⟩
    have hrest := ih (fun j hj => hb j (List.mem_cons_of_mem _ hj))
    simp only [collectGo, hv, hrest, List.filter_cons]
    by_cases hv1 : v = 1
    · subst hv1
      simp [hv]
    · simp [hv, hv1]

theorem composite_iff (hi n : Nat) (h2 : 2 ≤ n) (hn : n ≤ hi) :
    (∃ p ∈ (List.range (Nat.sqrt hi + 1)).filter (fun m => decide (Nat.Prime m)),
        p ∣ n ∧ p * p ≤ n) ↔ ¬ Nat.Prime n := by
  constructor
  · rintro ⟨p, hpmem, hdvd, hsq⟩ hprime
    rw [List.mem_filter] at hpmem
    have hp := of_decide_eq_true hpmem.2
    rcases hprime.eq_one_or_self_of_dvd p hdvd with h1 | h1
    · exact hp.one_lt.ne' h1
    · subst h1
      have h3 : 2 * p ≤ p * p := Nat.mul_le_mul_right p hp.two_le
      omega
  · intro hnp
    have hpr : Nat.Prime n.minFac := Nat.minFac_prime (by omega : n ≠ 1)
    have hsq : n.minFac ^ 2 ≤ n := Nat.minFac_sq_le_self (by omega) hnp
    rw [pow_two] at hsq
    refine ⟨n.minFac, ?_, Nat.minFac_dvd n, hsq⟩
    rw [List.mem_filter, List.mem_range]
    refine ⟨?_, decide_eq_true hpr⟩
    have h4 : n.minFac * n.minFac ≤ hi := le_trans hsq hn
    have h5 := Nat.le_sqrt.mpr h4
    omega

/-- C1 amended: for `2 ≤ lo ≤ hi ≤ 2^32 - 2^16` and the divisor list that is
exactly the primes `≤ √hi` in ascending order, `sieve_segment` returns exactly
the primes in `[lo, hi]`, in ascending order, each exactly once. -/
theorem sieve_segment_primes (lo hi : Nat) (hlo : 2 ≤ lo) (hlh : lo ≤ hi)
    (hhi : hi ≤ U32 - 65536) :
    sieve_segment lo hi
        ((List.range (Nat.sqrt hi + 1)).filter (fun n => decide (Nat.Prime n))) =
      some ((List.range' lo (hi + 1 - lo)).filter (fun n => decide (Nat.Prime n))) := by
  have hU : hi < U32 := by simp only [U32] at *; omega
  unfold sieve_segment
  have hsize : (wsub32 hi lo + 1) % U32 = hi + 1 - lo := by
    simp only [wsub32, U32] at *
    omega
  rw [hsize]
  dsimp only
  have hdiv : ∀ p ∈ (List.range (Nat.sqrt hi + 1)).filter (fun n => decide (Nat.Prime n)),
      2 ≤ p ∧ p * p ≤ hi := by
    intro p hp
    rw [List.mem_filter, List.mem_range] at hp
    have hpr := of_decide_eq_true hp.2
    exact ⟨hpr.two_le, Nat.le_sqrt.mp (by omega)⟩
  obtain ⟨arr2, hmark, hlen, hchar⟩ :=
    markLoop_spec lo hi hlh hhi _ (List.replicate (hi + 1 - lo) 1) hdiv
      (List.length_replicate _ _)
  rw [hmark]
  dsimp only
  rw [List.length_replicate] at hlen hchar
  rw [collectGo_spec lo arr2 _ ?bound]
  case bound =>
    intro i hi2
    rw [List.mem_range'_1] at hi2
    rw [hlen]
    omega
  congr 1
  apply List.filter_congr
  intro n hn
  rw [List.mem_range'_1] at hn
  have h2n : 2 ≤ n := le_trans hlo hn.1
  have hnhi : n ≤ hi := by omega
  have hidx : n - lo < hi + 1 - lo := by omega
  have hlon : lo + (n - lo) = n := by omega
  have hcond := hchar (n - lo) hidx
  by_cases hprime : Nat.Prime n
  · have hno : ∀ p ∈ (List.range (Nat.sqrt hi + 1)).filter (fun m => decide (Nat.Prime m)),
        ¬(p ∣ (lo + (n - lo)) ∧ p * p ≤ lo + (n - lo)) := by
      rw [hlon]
      intro p hp hc
      exact (composite_iff hi n h2n hnhi).mp ⟨p, hp, hc.1, hc.2⟩ hprime
    rw [hcond.2 hno, List.get?_eq_getElem?, List.getElem?_replicate]
    simp [hidx, hprime]
  · have hyes : ∃ p ∈ (List.range (Nat.sqrt hi + 1)).filter (fun m => decide (Nat.Prime m)),
        p ∣ (lo + (n - lo)) ∧ p * p ≤ lo + (n - lo) := by
      rw [hlon]
      exact (composite_iff hi n h2n hnhi).mpr hprime
    rw [hcond.1 hyes]
    simp [hprime]

end PrimeSocket

namespace PrimeSocket

/-- C1 counterexample: at `lo = 0, hi = 4` the divisor list that is exactly
the primes `≤ √4` is `[2]`, yet `sieve_segment 0 4 [2]` returns
`[0, 1, 2, 3]` — it reports 0 and 1 as primes and misses nothing else — while
the primes in `[0, 4]` are `[2, 3]`. -/
theorem sieve_zero_one_counterexample :
    (List.range (Nat.sqrt 4 + 1)).filter (fun n => decide (Nat.Prime n)) = [2] ∧
    sieve_segment 0 4 [2] = some [0, 1, 2, 3] ∧
    (List.range' 0 (4 + 1 - 0)).filter (fun n => decide (Nat.Prime n)) = [2, 3] ∧
    sieve_segment 0 4 [2] ≠
      some ((List.range' 0 (4 + 1 - 0)).filter (fun n => decide (Nat.Prime n))) := by
  refine ⟨?_, by decide, ?_, ?_⟩
  · norm_num [List.range, List.range.loop, List.filter]
  · norm_num [List.range', List.filter]
  · intro hcontra
    rw [show (List.range' 0 (4 + 1 - 0)).filter (fun n => decide (Nat.Prime n)) = [2, 3] by
      norm_num [List.range', List.filter]] at hcontra
    exact absurd hcontra (by decide)

/-- Witness for `sieve_segment_primes` at `lo = 2, hi = 10`. -/
theorem sieve_segment_primes_witness :
    (2 : Nat) ≤ 2 ∧ (2 : Nat) ≤ 10 ∧ (10 : Nat) ≤ U32 - 65536 ∧
    sieve_segment 2 10
        ((List.range (Nat.sqrt 10 + 1)).filter (fun n => decide (Nat.Prime n))) =
      some ((List.range' 2 (10 + 1 - 2)).filter (fun n => decide (Nat.Prime n))) :=
  ⟨by decide, by decide, by decide,
    sieve_segment_primes 2 10 (by decide) (by decide) (by decide)⟩

end PrimeSocket
